import Mathlib

/-!
# Verification of `black_hole_scattering.py`

A shallow embedding, in Lean 4, of the numerically meaningful parts of the
binary-black-hole scattering animation script: the spline interpolation
guard, the uniform-in-orbits time resampling, the freeze-time insertion,
the composite time grid, component trajectory reconstruction, the
post-Newtonian separation estimator, the waveform plane grid and the
remnant drift trajectory.

Functions whose source works with floating point arrays are embedded over
`ℚ` when no transcendental constant occurs in them, and over `ℝ` when
`π`, trigonometric functions or real powers appear.  External library
calls (`numpy`, `scipy`, `surfinBH._utils`) are embedded by their
documented semantics, noted at each definition.
-/

namespace BHScattering

/-! ## Generic numpy-style helpers -/

/-- `np.min` of a list of rationals (junk value `0` on the empty list,
where `np.min` raises). -/
def listMin : List ℚ → ℚ
  | [] => 0
  | x :: xs => xs.foldl min x

/-- `np.max` of a list of rationals (junk value `0` on the empty list,
where `np.max` raises). -/
def listMax : List ℚ → ℚ
  | [] => 0
  | x :: xs => xs.foldl max x

theorem le_foldl_min_iff (x a : ℚ) (l : List ℚ) :
    x ≤ l.foldl min a ↔ x ≤ a ∧ ∀ y ∈ l, x ≤ y := by
  induction l generalizing a with
  | nil => simp
  | cons b bs ih =>
    simp only [List.foldl_cons, ih, le_min_iff, List.mem_cons]
    constructor
    · rintro ⟨⟨h1, h2⟩, h3⟩
      exact ⟨h1, fun y hy => by rcases hy with rfl | hy; exact h2; exact h3 y hy⟩
    · rintro ⟨h1, h2⟩
      exact ⟨⟨h1, h2 b (Or.inl rfl)⟩, fun y hy => h2 y (Or.inr hy)⟩

theorem foldl_max_le_iff (x a : ℚ) (l : List ℚ) :
    l.foldl max a ≤ x ↔ a ≤ x ∧ ∀ y ∈ l, y ≤ x := by
  induction l generalizing a with
  | nil => simp
  | cons b bs ih =>
    simp only [List.foldl_cons, ih, max_le_iff, List.mem_cons]
    constructor
    · rintro ⟨⟨h1, h2⟩, h3⟩
      exact ⟨h1, fun y hy => by rcases hy with rfl | hy; exact h2; exact h3 y hy⟩
    · rintro ⟨h1, h2⟩
      exact ⟨⟨h1, h2 b (Or.inl rfl)⟩, fun y hy => h2 y (Or.inr hy)⟩

theorem listMin_le_of_mem {x : ℚ} {l : List ℚ} (hx : x ∈ l) :
    listMin l ≤ x := by
  match l, hx with
  | a :: as, hx =>
    by_contra h
    push_neg at h
    have := (le_foldl_min_iff (listMin (a :: as)) a as).mp le_rfl
    rcases List.mem_cons.mp hx with rfl | hx
    · exact absurd this.1 (by linarith)
    · exact absurd (this.2 x hx) (by linarith)

theorem le_listMax_of_mem {x : ℚ} {l : List ℚ} (hx : x ∈ l) :
    x ≤ listMax l := by
  match l, hx with
  | a :: as, hx =>
    by_contra h
    push_neg at h
    have := (foldl_max_le_iff (listMax (a :: as)) a as).mp le_rfl
    rcases List.mem_cons.mp hx with rfl | hx
    · exact absurd this.1 (by linarith)
    · exact absurd (this.2 x hx) (by linarith)

/-! ## 4.2 Spline interpolation / extrapolation guard (`spline_interp`)

Embeds:

    def spline_interp(newX, oldX, oldY, allowExtrapolation=False):
        if len(oldY) != len(oldX):
            raise Exception('Lengths dont match.')
        if not allowExtrapolation:
            if np.min(newX) < np.min(oldX) or np.max(newX) > np.max(oldX):
                raise Exception('Trying to extrapolate, ...')
        if not np.all(np.diff(oldX) > 0):
            raise Exception('oldX must have increasing values')
        newY = InterpolatedUnivariateSpline(oldX, oldY, ext=1)(newX)
        return newY

`scipy.interpolate.InterpolatedUnivariateSpline` with the default degree
`k = 3` raises unless `len(oldX) > 3`, and with `ext=1` it evaluates to
exactly `0` at every point outside the data interval
`[min oldX, max oldX]`.  The values the cubic spline takes strictly
inside the data interval are opaque library output; they are embedded
here as an arbitrary parameter `spl : ℚ → ℚ`, so every theorem below
holds for any interior spline behaviour. -/
def spline_interp (spl : ℚ → ℚ) (newX oldX oldY : List ℚ)
    (allowExtrapolation : Bool) : Except String (List ℚ) :=
  if oldY.length ≠ oldX.length then
    .error "Lengths dont match."
  else if ¬allowExtrapolation ∧
      (listMin newX < listMin oldX ∨ listMax oldX < listMax newX) then
    .error "Trying to extrapolate, but allowExtrapolation=False"
  else if ¬ oldX.Chain' (· < ·) then
    .error "oldX must have increasing values"
  else if oldX.length ≤ 3 then
    .error "m > k must hold"
  else
    .ok (newX.map fun x =>
      if x < listMin oldX ∨ listMax oldX < x then 0 else spl x)

/-- C1: with extrapolation disallowed, any requested output point outside
the closed interval spanned by the input abscissa array makes
`spline_interp` fail; with extrapolation allowed, whenever the call
succeeds, every output point lying outside the input domain evaluates to
exactly zero. -/
theorem spline_interp_extrapolation_guard (spl : ℚ → ℚ)
    (newX oldX oldY : List ℚ) (hold : oldX ≠ []) :
    ((∃ x ∈ newX, x < listMin oldX ∨ listMax oldX < x) →
      ∃ msg, spline_interp spl newX oldX oldY false = .error msg) ∧
    (∀ ys, spline_interp spl newX oldX oldY true = .ok ys →
      ∀ i, i < ys.length →
        (newX.getD i 0 < listMin oldX ∨ listMax oldX < newX.getD i 0) →
        ys.getD i 0 = 0) := by
  constructor
  · rintro ⟨x, hx, hout⟩
    unfold spline_interp
    by_cases hlen : oldY.length ≠ oldX.length
    · exact ⟨"Lengths dont match.", by rw [if_pos hlen]⟩
    · have hc : (¬((false : Bool) : Prop) ∧
          (listMin newX < listMin oldX ∨ listMax oldX < listMax newX)) := by
        refine ⟨by simp, ?_⟩
        rcases hout with hlt | hgt
        · exact Or.inl (lt_of_le_of_lt (listMin_le_of_mem hx) hlt)
        · exact Or.inr (lt_of_lt_of_le hgt (le_listMax_of_mem hx))
      exact ⟨"Trying to extrapolate, but allowExtrapolation=False",
        by rw [if_neg hlen, if_pos hc]⟩
  · intro ys hok i hi hout
    unfold spline_interp at hok
    split at hok; · exact absurd hok (by simp)
    split at hok; · exact absurd hok (by simp)
    split at hok; · exact absurd hok (by simp)
    split at hok; · exact absurd hok (by simp)
    cases hok
    have hilen : i < newX.length := by simpa using hi
    rw [List.getD_eq_getElem _ _ hi, List.getElem_map]
    rw [List.getD_eq_getElem _ _ hilen] at hout
    exact if_pos hout

/-- Concrete instance for `spline_interp_extrapolation_guard`: output
point `10` lies above the data interval `[0, 3]`. -/
theorem spline_interp_extrapolation_guard_witness :
    ((∃ x ∈ [(10 : ℚ)], x < listMin [0, 1, 2, 3] ∨ listMax [0, 1, 2, 3] < x) →
      ∃ msg, spline_interp id [10] [0, 1, 2, 3] [5, 6, 7, 8] false
        = .error msg) ∧
    (∀ ys, spline_interp id [10] [0, 1, 2, 3] [5, 6, 7, 8] true = .ok ys →
      ∀ i, i < ys.length →
        ([(10 : ℚ)].getD i 0 < listMin [0, 1, 2, 3] ∨
          listMax [0, 1, 2, 3] < [(10 : ℚ)].getD i 0) →
        ys.getD i 0 = 0) :=
  spline_interp_extrapolation_guard id [10] [0, 1, 2, 3] [5, 6, 7, 8]
    (by decide)

/-! ## Script constants -/

/-- Number of frames per orbit (`PTS_PER_ORBIT = 30`, `LOW_DEF = False`). -/
def PTS_PER_ORBIT : ℕ := 30

/-- Time at which the video freezes (`FREEZE_TIME = -100`). -/
def FREEZE_TIME : ℚ := -100

/-- The waveform is no longer plotted after this time
(`waveform_end_time = 75`). -/
def waveform_end_time : ℚ := 75

/-- `np.arange(start, stop, step)` for a positive rational step:
`start + k*step` for `0 ≤ k < ⌈(stop - start)/step⌉`. -/
def np_arange (start stop step : ℚ) : List ℚ :=
  (List.range (⌈(stop - start) / step⌉.toNat)).map
    fun k : ℕ => start + (k : ℚ) * step

/-! ## Freeze-time insertion (lines 413–415 of `BBH_scattering`)

    if np.min(np.abs(t_binary - FREEZE_TIME)) > 0.1:
        t_binary = np.sort(np.append(t_binary, FREEZE_TIME))

The float literal `0.1` is embedded as the exact rational `1/10`.
`np.min` raises on an empty array; the `List.all` below is vacuously
true there, so theorems assume a nonempty input as the caller
guarantees. -/
def add_freeze_time (t_binary : List ℚ) : List ℚ :=
  if (t_binary.map fun x => |x - FREEZE_TIME|).all (fun d => 1/10 < d) then
    (t_binary ++ [FREEZE_TIME]).mergeSort fun a b => a ≤ b
  else t_binary

/-! ## Composite time grid (lines 457–459 of `BBH_scattering`)

    t = np.append(t_binary[t_binary<waveform_end_time],
        np.arange(waveform_end_time, 10000+waveform_end_time, 100))
-/
def composite_time_grid (t_binary : List ℚ) : List ℚ :=
  t_binary.filter (fun x => x < waveform_end_time) ++
    np_arange waveform_end_time (10000 + waveform_end_time) 100

/-! ## Remnant trajectory (lines 461–462 of `BBH_scattering`)

    # assume merger is at origin
    BhC_traj = np.array([tmp*t for tmp in vf])

Row `i` of the returned 2-d array is the kick-velocity component `vf[i]`
times the whole time array. -/
def BhC_traj (vf : ℚ × ℚ × ℚ) (t : List ℚ) : List (List ℚ) :=
  [t.map (vf.1 * ·), t.map (vf.2.1 * ·), t.map (vf.2.2 * ·)]

/-- C4: when the freeze time is farther than the tolerance `1/10` from
every existing sample of a nonempty resampled array, it is appended and
the array re-sorted; in the result exactly one element lies within the
tolerance of the freeze time, and the freeze value itself occurs exactly
once. -/
theorem add_freeze_time_unique (t_binary : List ℚ) (hne : t_binary ≠ [])
    (h : ∀ x ∈ t_binary, 1/10 < |x - FREEZE_TIME|) :
    add_freeze_time t_binary
        = (t_binary ++ [FREEZE_TIME]).mergeSort (fun a b => a ≤ b) ∧
    (add_freeze_time t_binary).Sorted (· ≤ ·) ∧
    (add_freeze_time t_binary).count FREEZE_TIME = 1 ∧
    ((add_freeze_time t_binary).filter
        fun x => |x - FREEZE_TIME| ≤ 1/10).length = 1 := by
  have hcond : ((t_binary.map fun x => |x - FREEZE_TIME|).all
      fun d => decide (1/10 < d)) = true := by
    rw [List.all_eq_true]
    intro d hd
    rcases List.mem_map.mp hd with ⟨x, hx, rfl⟩
    exact decide_eq_true (h x hx)
  have heq : add_freeze_time t_binary
      = (t_binary ++ [FREEZE_TIME]).mergeSort (fun a b => a ≤ b) := by
    unfold add_freeze_time
    rw [if_pos hcond]
  have hperm := List.mergeSort_perm (t_binary ++ [FREEZE_TIME])
    (fun a b : ℚ => a ≤ b)
  have hnotmem : FREEZE_TIME ∉ t_binary := fun hmem => by
    have := h FREEZE_TIME hmem
    rw [sub_self, abs_zero] at this
    exact absurd this (by norm_num)
  refine ⟨heq, ?_, ?_, ?_⟩
  · rw [heq]
    have := @List.sorted_mergeSort ℚ (fun a b : ℚ => decide (a ≤ b))
      (fun a b c hab hbc => by
        simp only [decide_eq_true_eq] at *; exact le_trans hab hbc)
      (fun a b => by simpa [Bool.or_eq_true, decide_eq_true_eq]
        using le_total a b)
      (t_binary ++ [FREEZE_TIME])
    exact this.imp fun hab => by simpa using hab
  · rw [heq, hperm.count_eq, List.count_append]
    rw [List.count_eq_zero.mpr hnotmem]
    simp
  · rw [heq, (hperm.filter _).length_eq, List.filter_append]
    have h1 : t_binary.filter (fun x => |x - FREEZE_TIME| ≤ 1/10) = [] := by
      rw [List.filter_eq_nil_iff]
      intro x hx
      simpa using not_le_of_lt (h x hx)
    have h2 : [FREEZE_TIME].filter (fun x => |x - FREEZE_TIME| ≤ 1/10)
        = [FREEZE_TIME] := by simp
    rw [h1, h2]
    rfl

/-- Concrete instance for `add_freeze_time_unique` on the array `[0]`. -/
theorem add_freeze_time_unique_witness :
    add_freeze_time [0]
        = (([0] : List ℚ) ++ [FREEZE_TIME]).mergeSort (fun a b => a ≤ b) ∧
    (add_freeze_time [0]).Sorted (· ≤ ·) ∧
    (add_freeze_time [0]).count FREEZE_TIME = 1 ∧
    ((add_freeze_time [0]).filter
        fun x => |x - FREEZE_TIME| ≤ 1/10).length = 1 :=
  add_freeze_time_unique [0] (by simp)
    (by intro x hx
        rcases List.mem_singleton.mp hx with rfl
        norm_num [FREEZE_TIME])

theorem np_arange_pairwise_lt {start stop step : ℚ} (hstep : 0 < step) :
    (np_arange start stop step).Pairwise (· < ·) := by
  unfold np_arange
  rw [List.pairwise_map]
  refine (List.pairwise_lt_range _).imp fun {a b} hab => ?_
  have h1 : (a : ℚ) < (b : ℚ) := by exact_mod_cast hab
  have h2 : (a : ℚ) * step < (b : ℚ) * step :=
    mul_lt_mul_of_pos_right h1 hstep
  linarith

theorem np_arange_chain'_step (start stop step : ℚ) :
    (np_arange start stop step).Chain' (fun a b => b = a + step) := by
  unfold np_arange
  rw [List.chain'_map]
  cases h : ⌈(stop - start) / step⌉.toNat with
  | zero => simp
  | succ n =>
    rw [List.chain'_range_succ]
    intro m _
    push_cast
    ring

theorem start_le_of_mem_np_arange {start stop step x : ℚ} (hstep : 0 ≤ step)
    (hx : x ∈ np_arange start stop step) : start ≤ x := by
  unfold np_arange at hx
  rcases List.mem_map.mp hx with ⟨k, _, rfl⟩
  have : (0 : ℚ) ≤ (k : ℚ) * step :=
    mul_nonneg (Nat.cast_nonneg k) hstep
  linarith

theorem np_arange_75_count :
    np_arange waveform_end_time (10000 + waveform_end_time) 100
      = (List.range 100).map
          fun k : ℕ => waveform_end_time + (k : ℚ) * 100 := by
  unfold np_arange waveform_end_time
  have h : (⌈(((10000 : ℚ) + 75) - 75) / 100⌉).toNat = 100 := by
    have : (⌈(((10000 : ℚ) + 75) - 75) / 100⌉) = 100 := by norm_num
    rw [this]; rfl
  rw [h]

theorem np_arange_75_getLast? :
    (np_arange waveform_end_time (10000 + waveform_end_time) 100).getLast?
      = some 9975 := by
  rw [np_arange_75_count, show (100 : ℕ) = 99 + 1 from rfl, List.range_succ,
    List.map_append]
  simp only [List.map_cons, List.map_nil, List.getLast?_concat]
  norm_num [waveform_end_time]

/-- C8: if the pre-merger resampled array is strictly increasing, then the
composite time grid — its samples strictly below the waveform cutoff
followed by the uniform post-merger grid — is strictly increasing; the
portion of the grid at or beyond the cutoff is exactly the uniform grid
`np.arange(75, 10075, 100)`, whose consecutive samples advance by
100 time units and which ends at `9975`, beyond the cutoff `75`. -/
theorem composite_time_grid_invariants (t_binary : List ℚ)
    (h : t_binary.Pairwise (· < ·)) :
    (composite_time_grid t_binary).Pairwise (· < ·) ∧
    (composite_time_grid t_binary).filter (fun x => waveform_end_time ≤ x)
      = np_arange waveform_end_time (10000 + waveform_end_time) 100 ∧
    (np_arange waveform_end_time (10000 + waveform_end_time) 100).Chain'
      (fun a b => b = a + 100) ∧
    (np_arange waveform_end_time (10000 + waveform_end_time) 100).getLast?
      = some 9975 ∧ waveform_end_time < 9975 := by
  have hmem_lt : ∀ a ∈ t_binary.filter (fun x => x < waveform_end_time),
      a < waveform_end_time := by
    intro a ha
    simpa using (List.mem_filter.mp ha).2
  have hmem_ge : ∀ b ∈ np_arange waveform_end_time
      (10000 + waveform_end_time) 100, waveform_end_time ≤ b :=
    fun b hb => start_le_of_mem_np_arange (by norm_num) hb
  refine ⟨?_, ?_, np_arange_chain'_step _ _ _, np_arange_75_getLast?, ?_⟩
  · unfold composite_time_grid
    rw [List.pairwise_append]
    exact ⟨h.sublist (List.filter_sublist _),
      np_arange_pairwise_lt (by norm_num),
      fun a ha b hb => lt_of_lt_of_le (hmem_lt a ha) (hmem_ge b hb)⟩
  · unfold composite_time_grid
    rw [List.filter_append]
    have h1 : (t_binary.filter (fun x => x < waveform_end_time)).filter
        (fun x => waveform_end_time ≤ x) = [] := by
      rw [List.filter_eq_nil_iff]
      intro a ha
      simpa using not_le_of_lt (hmem_lt a ha)
    have h2 : (np_arange waveform_end_time (10000 + waveform_end_time)
        100).filter (fun x => waveform_end_time ≤ x)
        = np_arange waveform_end_time (10000 + waveform_end_time) 100 := by
      rw [List.filter_eq_self]
      intro a ha
      simpa using hmem_ge a ha
    rw [h1, h2, List.nil_append]
  · norm_num [waveform_end_time]

/-- Concrete instance for `composite_time_grid_invariants` on the
strictly increasing pre-merger array `[-4000, -100, 0, 50, 80]`. -/
theorem composite_time_grid_invariants_witness :
    (composite_time_grid [-4000, -100, 0, 50, 80]).Pairwise (· < ·) ∧
    (composite_time_grid [-4000, -100, 0, 50, 80]).filter
        (fun x => waveform_end_time ≤ x)
      = np_arange waveform_end_time (10000 + waveform_end_time) 100 ∧
    (np_arange waveform_end_time (10000 + waveform_end_time) 100).Chain'
      (fun a b => b = a + 100) ∧
    (np_arange waveform_end_time (10000 + waveform_end_time) 100).getLast?
      = some 9975 ∧ waveform_end_time < 9975 :=
  composite_time_grid_invariants [-4000, -100, 0, 50, 80]
    (by norm_num [List.pairwise_cons])

/-- C7: at every sample of the composite time grid, the remnant position
(the column of `BhC_traj` at that sample) is the kick velocity vector
`vf` scaled by the time elapsed since the merger, which the code places
at the time origin `t = 0` (`# assume merger is at origin`). -/
theorem BhC_traj_uniform_linear_motion (vf : ℚ × ℚ × ℚ)
    (t_binary : List ℚ) (i : ℕ)
    (hi : i < (composite_time_grid t_binary).length) :
    (BhC_traj vf (composite_time_grid t_binary)).map
        (fun row => row.getD i 0)
      = [vf.1 * ((composite_time_grid t_binary).getD i 0 - 0),
         vf.2.1 * ((composite_time_grid t_binary).getD i 0 - 0),
         vf.2.2 * ((composite_time_grid t_binary).getD i 0 - 0)] := by
  unfold BhC_traj
  have hmap : ∀ c : ℚ,
      ((composite_time_grid t_binary).map (c * ·)).getD i 0
        = c * ((composite_time_grid t_binary).getD i 0 - 0) := by
    intro c
    rw [List.getD_eq_getElem _ _ (by simpa using hi), List.getElem_map,
      List.getD_eq_getElem _ _ hi]
    ring
  simp only [List.map_cons, List.map_nil, hmap]

/-- Concrete instance for `BhC_traj_uniform_linear_motion`:
`vf = (1, 2, 3)`, empty pre-merger array, first grid sample. -/
theorem BhC_traj_uniform_linear_motion_witness :
    (BhC_traj (1, 2, 3) (composite_time_grid [])).map
        (fun row => row.getD 0 0)
      = [1 * ((composite_time_grid []).getD 0 0 - 0),
         2 * ((composite_time_grid []).getD 0 0 - 0),
         3 * ((composite_time_grid []).getD 0 0 - 0)] :=
  BhC_traj_uniform_linear_motion (1, 2, 3) [] 0
    (by rw [composite_time_grid, List.filter_nil, List.nil_append,
          np_arange_75_count]
        simp)

/-! ## numpy helpers over ℝ -/

/-- `np.linspace(a, b, n)` with `endpoint=True` (numpy's default):
`n` evenly spaced samples from `a` to `b` inclusive. -/
noncomputable def np_linspace (a b : ℝ) (n : ℕ) : List ℝ :=
  if n = 0 then []
  else if n = 1 then [a]
  else (List.range n).map fun i : ℕ => a + (i : ℝ) * (b - a) / ((n : ℝ) - 1)

theorem np_linspace_length (a b : ℝ) (n : ℕ) :
    (np_linspace a b n).length = n := by
  unfold np_linspace
  split
  · simp_all
  · split
    · simp_all
    · simp

/-- One point of `np.interp(x, xp, fp)`: piecewise-linear interpolation
with clamping to `fp[0]` below `xp[0]` and to `fp[-1]` above `xp[-1]`.
This matches numpy on increasing `xp`; numpy performs no monotonicity
check and also returns (garbage values, but no error) on non-monotonic
`xp`, which this total embedding reflects by still returning a value. -/
noncomputable def np_interp_point (x : ℝ) : List ℝ → List ℝ → ℝ
  | [_], y0 :: _ => y0
  | x0 :: x1 :: xs, y0 :: y1 :: ys =>
    if x ≤ x0 then y0
    else if x ≤ x1 then y0 + (x - x0) * (y1 - y0) / (x1 - x0)
    else np_interp_point x (x1 :: xs) (y1 :: ys)
  | _, _ => 0

/-! ## 4.1 Time resampling (`get_uniform_in_orbits_times`)

Embeds:

    def get_uniform_in_orbits_times(t, phi_orb, PTS_PER_ORBIT):
        n_orbits = int(abs((phi_orb[-1] - phi_orb[0])/(2*np.pi)))
        n_pts = int(n_orbits*PTS_PER_ORBIT)
        phi_orb_sparse = np.linspace(phi_orb[0], phi_orb[-1], n_pts)
        t_sparse = np.interp(phi_orb_sparse, phi_orb, t)
        return t_sparse

Python's `int()` truncates toward zero; the truncated quantity here is
the *orbit count alone* (`n_orbits`), and `n_pts = n_orbits*PTS_PER_ORBIT`
is a product of integers, so its own `int()` is the identity.  Failure
modes of the source: `phi_orb[-1]` raises `IndexError` on an empty
array, and `np.interp` raises `ValueError` when `len(fp) != len(xp)`;
no monotonicity or minimum-length validation exists anywhere. -/
noncomputable def get_uniform_in_orbits_times (t phi_orb : List ℝ)
    (pts_per_orbit : ℕ) : Except String (List ℝ) :=
  match phi_orb.head?, phi_orb.getLast? with
  | some φ0, some φe =>
    let n_orbits : ℕ := (⌊|φe - φ0| / (2 * Real.pi)⌋).toNat
    let n_pts : ℕ := n_orbits * pts_per_orbit
    if t.length ≠ phi_orb.length then
      .error "ValueError: fp and xp are not of the same length"
    else
      .ok ((np_linspace φ0 φe n_pts).map fun φ => np_interp_point φ phi_orb t)
  | _, _ => .error "IndexError: index -1 is out of bounds"

/-- C2 counterexample: with phase span `3π` (1.5 orbits) and 30 points
per orbit, the resampling returns 30 samples, while truncating the
*product* `orbit_count × points_per_orbit` would give
`⌊1.5 × 30⌋ = 45`; the code truncates the orbit count first. -/
theorem get_uniform_count_not_floor_of_product :
    ∃ ys, get_uniform_in_orbits_times [0, 1] [0, 3 * Real.pi] 30 = .ok ys ∧
      ys.length = 30 ∧
      ⌊|3 * Real.pi - 0| / (2 * Real.pi) * 30⌋ = 45 ∧ (30 : ℤ) ≠ 45 := by
  have hpi := Real.pi_pos
  have habs : |3 * Real.pi - 0| = 3 * Real.pi := by
    rw [sub_zero]; exact abs_of_pos (by positivity)
  have hdiv : 3 * Real.pi / (2 * Real.pi) = 3 / 2 := by
    field_simp
    ring
  have hfl : (⌊|3 * Real.pi - 0| / (2 * Real.pi)⌋ : ℤ) = 1 := by
    rw [habs, hdiv]
    norm_num
  rw [get_uniform_in_orbits_times,
    show ([0, 3 * Real.pi] : List ℝ).head? = some 0 from rfl,
    show ([0, 3 * Real.pi] : List ℝ).getLast? = some (3 * Real.pi) by simp]
  dsimp only
  rw [if_neg (by simp)]
  refine ⟨_, rfl, ?_, ?_, by norm_num⟩
  · rw [List.length_map, np_linspace_length, hfl]
    rfl
  · rw [habs, hdiv, show (3 : ℝ) / 2 * 30 = 45 by norm_num]
    norm_num

/-- C2 amended: the resampling succeeds whenever the time and phase
arrays have equal length and the phase array is nonempty, and produces
exactly `⌊|phase[end] - phase[start]| / 2π⌋ × points_per_orbit` samples:
truncation is applied to the orbit count alone, before the
multiplication by the points-per-orbit factor. -/
theorem get_uniform_sample_count (t phi_orb : List ℝ) (φ0 φe : ℝ)
    (h0 : phi_orb.head? = some φ0) (he : phi_orb.getLast? = some φe)
    (hlen : t.length = phi_orb.length) (pts_per_orbit : ℕ) :
    ∃ ys, get_uniform_in_orbits_times t phi_orb pts_per_orbit = .ok ys ∧
      ys.length
        = (⌊|φe - φ0| / (2 * Real.pi)⌋).toNat * pts_per_orbit := by
  rw [get_uniform_in_orbits_times, h0, he]
  dsimp only
  rw [if_neg (by simp [hlen])]
  exact ⟨_, rfl, by rw [List.length_map, np_linspace_length]⟩

/-- Concrete instance for `get_uniform_sample_count`. -/
theorem get_uniform_sample_count_witness :
    ∃ ys, get_uniform_in_orbits_times [0, 1] [0, 3 * Real.pi] 30 = .ok ys ∧
      ys.length = (⌊|3 * Real.pi - 0| / (2 * Real.pi)⌋).toNat * 30 := by
  exact get_uniform_sample_count [0, 1] [0, 3 * Real.pi] 0 (3 * Real.pi) rfl
    (by simp) rfl 30

/-- C3 counterexample: a strictly decreasing (non-monotonic-increasing)
two-point phase array and a one-point phase array both make the
resampling return successfully instead of raising. -/
theorem get_uniform_no_monotonicity_validation :
    (∃ ys, get_uniform_in_orbits_times [0, 1] [1, 0] 30 = .ok ys) ∧
    (∃ ys, get_uniform_in_orbits_times [5] [7] 30 = .ok ys) := by
  constructor
  · rw [get_uniform_in_orbits_times,
      show ([1, 0] : List ℝ).head? = some 1 from rfl,
      show ([1, 0] : List ℝ).getLast? = some 0 by simp]
    dsimp only
    rw [if_neg (by simp)]
    exact ⟨_, rfl⟩
  · rw [get_uniform_in_orbits_times,
      show ([7] : List ℝ).head? = some 7 from rfl,
      show ([7] : List ℝ).getLast? = some 7 by simp]
    dsimp only
    rw [if_neg (by simp)]
    exact ⟨_, rfl⟩

/-- C3 amended: the resampling performs no monotonicity and no
minimum-length validation; given equal-length inputs, it fails if and
only if the phase array is empty (the source's index error). -/
theorem get_uniform_fails_iff_empty (t phi_orb : List ℝ)
    (pts_per_orbit : ℕ) (hlen : t.length = phi_orb.length) :
    (get_uniform_in_orbits_times t phi_orb pts_per_orbit).isOk
      = !phi_orb.isEmpty := by
  cases hl : phi_orb with
  | nil =>
    subst hl
    rfl
  | cons a as =>
    subst hl
    have hlast : ∃ e, (a :: as).getLast? = some e := by
      have := List.getLast?_isSome (l := a :: as)
      rcases h : (a :: as).getLast? with _ | e
      · rw [h] at this
        simp at this
      · exact ⟨e, rfl⟩
    rcases hlast with ⟨e, he⟩
    rw [get_uniform_in_orbits_times,
      show (a :: as).head? = some a from rfl, he]
    dsimp only
    rw [if_neg (by simp [hlen])]
    rfl

/-- Concrete instance for `get_uniform_fails_iff_empty` at a
non-monotonic two-point phase array. -/
theorem get_uniform_fails_iff_empty_witness :
    (get_uniform_in_orbits_times [0, 1] [1, 0] 30).isOk
      = !([1, 0] : List ℝ).isEmpty :=
  get_uniform_fails_iff_empty [0, 1] [1, 0] 30 rfl

/-! ## 4.5 Trajectory reconstruction (`get_trajectory`)

The quaternion helpers embed `surfinBH._utils` (external collaborator
library): `multiplyQuats` is the Hamilton product with the library's own
term ordering, `quatInv` is the conjugate divided by the squared norm,
and `transformTimeDependentVector(quat, vec, inverse=0)` is the vector
part of `quat * (0, vec) * quatInv(quat)`, applied per time sample. -/

/-- A quaternion `(q0, q1, q2, q3)`. -/
abbrev Quat : Type := ℝ × ℝ × ℝ × ℝ

/-- A 3-vector `(x, y, z)`. -/
abbrev Vec3 : Type := ℝ × ℝ × ℝ

/-- `surfinBH._utils.multiplyQuats`. -/
def multiplyQuats (p q : Quat) : Quat :=
  (p.1 * q.1 - p.2.1 * q.2.1 - p.2.2.1 * q.2.2.1 - p.2.2.2 * q.2.2.2,
   p.2.2.1 * q.2.2.2 - q.2.2.1 * p.2.2.2 + p.1 * q.2.1 + q.1 * p.2.1,
   p.2.2.2 * q.2.1 - q.2.2.2 * p.2.1 + p.1 * q.2.2.1 + q.1 * p.2.2.1,
   p.2.1 * q.2.2.1 - q.2.1 * p.2.2.1 + p.1 * q.2.2.2 + q.1 * p.2.2.2)

/-- The quaternion conjugate (`qConj` inside `surfinBH._utils.quatInv`). -/
def quatConj (q : Quat) : Quat := (q.1, -q.2.1, -q.2.2.1, -q.2.2.2)

/-- The squared norm `multiplyQuats(q, qConj)[0]`. -/
def quatNormSqr (q : Quat) : ℝ := (multiplyQuats q (quatConj q)).1

/-- `surfinBH._utils.quatInv`: conjugate divided by the squared norm. -/
noncomputable def quatInv (q : Quat) : Quat :=
  ((quatConj q).1 / quatNormSqr q, (quatConj q).2.1 / quatNormSqr q,
   (quatConj q).2.2.1 / quatNormSqr q, (quatConj q).2.2.2 / quatNormSqr q)

/-- `surfinBH._utils.transformTimeDependentVector` with `inverse=0`, at
one time sample: the vector part of `q * (0, v) * quatInv q`. -/
noncomputable def transformTimeDependentVector (q : Quat) (v : Vec3) : Vec3 :=
  ((multiplyQuats q (multiplyQuats (0, v.1, v.2.1, v.2.2) (quatInv q))).2.1,
   (multiplyQuats q (multiplyQuats (0, v.1, v.2.1, v.2.2) (quatInv q))).2.2.1,
   (multiplyQuats q (multiplyQuats (0, v.1, v.2.1, v.2.2) (quatInv q))).2.2.2)

/-- Embeds `get_trajectory(separation, quat_nrsur, orbphase_nrsur,
bh_label)`: place the component at polar angle `orbphase + offset`
(offset `0` for label `'A'`, `π` otherwise) and radius `separation` in
the co-precessing plane (`z = 0`), then rotate each sample into the
inertial frame by the time-dependent quaternion. -/
noncomputable def get_trajectory (separation : List ℝ)
    (quat_nrsur : List Quat) (orbphase_nrsur : List ℝ)
    (bh_label : String) : List Vec3 :=
  (separation.zip (quat_nrsur.zip orbphase_nrsur)).map fun sqp =>
    transformTimeDependentVector sqp.2.1
      (sqp.1 * Real.cos (sqp.2.2 + if bh_label = "A" then 0 else Real.pi),
       sqp.1 * Real.sin (sqp.2.2 + if bh_label = "A" then 0 else Real.pi),
       0)

/-- Component mass fraction `mA = q/(1+q)` (line 393). -/
noncomputable def mA (q : ℝ) : ℝ := q / (1 + q)

/-- Component mass fraction `mB = 1/(1+q)` (line 394). -/
noncomputable def mB (q : ℝ) : ℝ := 1 / (1 + q)

theorem transformTimeDependentVector_neg (q : Quat) (a b : ℝ) :
    transformTimeDependentVector q (-a, -b, 0)
      = (-(transformTimeDependentVector q (a, b, 0)).1,
         -(transformTimeDependentVector q (a, b, 0)).2.1,
         -(transformTimeDependentVector q (a, b, 0)).2.2) := by
  simp only [transformTimeDependentVector, multiplyQuats, quatInv,
    quatConj, quatNormSqr]
  refine Prod.ext ?_ (Prod.ext ?_ ?_) <;> dsimp only <;> ring

/-- C5: for equal mass ratio (`q = 1`) and both spin vectors zero, the
two components' reconstructed positions (the first scaled by `mB` with
label `'A'`, the second scaled by `mA` with label `'B'`, as at source
lines 438–439) are exact negatives of each other at every time sample.
The spin vectors do not enter the trajectory reconstruction at all, so
the zero-spin hypotheses of the claim are recorded but unused. -/
theorem get_trajectory_equal_mass_antipodal (qratio : ℝ) (hq : qratio = 1)
    (chiA chiB : Vec3) (hA : chiA = (0, 0, 0)) (hB : chiB = (0, 0, 0))
    (separation : List ℝ) (quat_nrsur : List Quat)
    (orbphase_nrsur : List ℝ) :
    get_trajectory (separation.map (· * mA qratio)) quat_nrsur
        orbphase_nrsur "B"
      = (get_trajectory (separation.map (· * mB qratio)) quat_nrsur
          orbphase_nrsur "A").map
          fun v => (-v.1, -v.2.1, -v.2.2) := by
  subst hq
  have hm : mA 1 = mB 1 := by norm_num [mA, mB]
  rw [hm]
  unfold get_trajectory
  rw [List.map_map]
  refine List.map_congr_left fun sqp hsqp => ?_
  dsimp only [Function.comp]
  rw [if_neg (by decide), if_pos rfl, add_zero, Real.cos_add_pi,
    Real.sin_add_pi, mul_neg, mul_neg]
  exact transformTimeDependentVector_neg sqp.2.1 _ _

/-- Concrete instance for `get_trajectory_equal_mass_antipodal`. -/
theorem get_trajectory_equal_mass_antipodal_witness :
    get_trajectory ([1, 2].map (· * mA 1)) [(1, 0, 0, 0), (1, 0, 0, 0)]
        [0, 1] "B"
      = (get_trajectory ([1, 2].map (· * mB 1)) [(1, 0, 0, 0), (1, 0, 0, 0)]
          [0, 1] "A").map
          fun v => (-v.1, -v.2.1, -v.2.2) :=
  get_trajectory_equal_mass_antipodal 1 rfl (0, 0, 0) (0, 0, 0) rfl rfl
    [1, 2] [(1, 0, 0, 0), (1, 0, 0, 0)] [0, 1]

theorem weighted_sum_zero (qt : Quat) (s c sn m1 m2 : ℝ) :
    m1 * (transformTimeDependentVector qt (s * m2 * c, s * m2 * sn, 0)).1
      + m2 * (transformTimeDependentVector qt
          (s * m1 * -c, s * m1 * -sn, 0)).1 = 0 ∧
    m1 * (transformTimeDependentVector qt (s * m2 * c, s * m2 * sn, 0)).2.1
      + m2 * (transformTimeDependentVector qt
          (s * m1 * -c, s * m1 * -sn, 0)).2.1 = 0 ∧
    m1 * (transformTimeDependentVector qt (s * m2 * c, s * m2 * sn, 0)).2.2
      + m2 * (transformTimeDependentVector qt
          (s * m1 * -c, s * m1 * -sn, 0)).2.2 = 0 := by
  simp only [transformTimeDependentVector, multiplyQuats, quatInv,
    quatConj, quatNormSqr]
  refine ⟨?_, ?_, ?_⟩ <;> dsimp only <;> ring

/-- C9: for every mass ratio `q > 0` the mass fractions `mA = q/(1+q)`
and `mB = 1/(1+q)` sum to one, and the mass-weighted sum of the two
reconstructed component positions, `mA·posA + mB·posB`, is the zero
vector at every pre-merger time sample. -/
theorem center_of_mass_at_origin (qratio : ℝ) (hq : 0 < qratio)
    (separation : List ℝ) (quat_nrsur : List Quat)
    (orbphase_nrsur : List ℝ) :
    mA qratio + mB qratio = 1 ∧
    List.Forall₂ (fun a b =>
        mA qratio * a.1 + mB qratio * b.1 = 0 ∧
        mA qratio * a.2.1 + mB qratio * b.2.1 = 0 ∧
        mA qratio * a.2.2 + mB qratio * b.2.2 = 0)
      (get_trajectory (separation.map (· * mB qratio)) quat_nrsur
        orbphase_nrsur "A")
      (get_trajectory (separation.map (· * mA qratio)) quat_nrsur
        orbphase_nrsur "B") := by
  have h1 : (1 : ℝ) + qratio ≠ 0 := by positivity
  refine ⟨?_, ?_⟩
  · unfold mA mB
    field_simp
    ring
  · unfold get_trajectory
    induction separation generalizing quat_nrsur orbphase_nrsur with
    | nil => simp
    | cons s ss ih =>
      cases quat_nrsur with
      | nil => simp
      | cons qt qs =>
        cases orbphase_nrsur with
        | nil => simp
        | cons φ φs =>
          simp only [List.map_cons, List.zip_cons_cons]
          refine List.Forall₂.cons ?_ (ih qs φs)
          dsimp only
          rw [if_neg (show ¬("B" : String) = "A" by decide)]
          simp only [if_true, add_zero, Real.cos_add_pi, Real.sin_add_pi]
          exact weighted_sum_zero qt s (Real.cos φ) (Real.sin φ)
            (mA qratio) (mB qratio)

/-- Concrete instance for `center_of_mass_at_origin` at mass ratio 2. -/
theorem center_of_mass_at_origin_witness :
    mA 2 + mB 2 = 1 ∧
    List.Forall₂ (fun a b =>
        mA 2 * a.1 + mB 2 * b.1 = 0 ∧
        mA 2 * a.2.1 + mB 2 * b.2.1 = 0 ∧
        mA 2 * a.2.2 + mB 2 * b.2.2 = 0)
      (get_trajectory ([5].map (· * mB 2)) [(1, 0, 0, 0)] [0] "A")
      (get_trajectory ([5].map (· * mA 2)) [(1, 0, 0, 0)] [0] "B") :=
  center_of_mass_at_origin 2 (by norm_num) [5] [(1, 0, 0, 0)] [0]

/-! ## Waveform plane grid (`get_grid_on_plane`)

Embeds:

    def get_grid_on_plane(num_pts_1d, max_range):
        # generate grid
        num_pts_1d = 10
        x_1d = np.linspace(-max_range, max_range, num_pts_1d)
        y_1d = np.linspace(-max_range, max_range, num_pts_1d)
        z = -max_range
        x, y = np.meshgrid(x_1d, y_1d)
        r = np.sqrt(x**2 + y**2 + z**2)
        th = np.arccos(z/r)
        ph = np.arctan2(y,x)
        return [r, th, ph], [x,y]

The first statement of the body unconditionally overwrites the
`num_pts_1d` parameter with `10`.  `np.meshgrid` produces
`x[i][j] = x_1d[j]` and `y[i][j] = y_1d[i]`; `np.arctan2(y, x)` is the
argument of the complex number `x + i y`. -/
noncomputable def get_grid_on_plane (num_pts_1d : ℕ) (max_range : ℝ) :
    (List (List ℝ) × List (List ℝ) × List (List ℝ)) ×
      (List (List ℝ) × List (List ℝ)) :=
  let num_pts_1d := 10
  let x_1d := np_linspace (-max_range) max_range num_pts_1d
  let y_1d := np_linspace (-max_range) max_range num_pts_1d
  let z := -max_range
  let x := y_1d.map fun _ => x_1d
  let y := y_1d.map fun yi => x_1d.map fun _ => yi
  let r := List.zipWith (fun xr yr => List.zipWith
    (fun a b => Real.sqrt (a ^ 2 + b ^ 2 + z ^ 2)) xr yr) x y
  let th := r.map fun row => row.map fun rv => Real.arccos (z / rv)
  let ph := List.zipWith (fun xr yr => List.zipWith
    (fun (a b : ℝ) => Complex.arg ((a : ℂ) + (b : ℂ) * Complex.I)) xr yr) x y
  ((r, th, ph), (x, y))

theorem zipWith_map_same {α β γ δ : Type} (f : β → γ → δ) (g : α → β)
    (h : α → γ) (l : List α) :
    List.zipWith f (l.map g) (l.map h) = l.map fun a => f (g a) (h a) := by
  induction l with
  | nil => rfl
  | cons a as ih => simp [ih]

theorem zipWith_left_map {α γ δ : Type} (f : α → γ → δ) (h : α → γ)
    (l : List α) :
    List.zipWith f l (l.map h) = l.map fun a => f a (h a) := by
  induction l with
  | nil => rfl
  | cons a as ih => simp [ih]

/-- C10: the waveform-grid constructor ignores its grid-resolution
parameter: for any two values of `num_pts_1d` the results coincide, and
all five returned matrices are always 10 × 10. -/
theorem get_grid_on_plane_ignores_resolution (n₁ n₂ : ℕ)
    (max_range : ℝ) :
    get_grid_on_plane n₁ max_range = get_grid_on_plane n₂ max_range ∧
    ((get_grid_on_plane n₁ max_range).1.1.length = 10 ∧
      ∀ row ∈ (get_grid_on_plane n₁ max_range).1.1, row.length = 10) ∧
    ((get_grid_on_plane n₁ max_range).1.2.1.length = 10 ∧
      ∀ row ∈ (get_grid_on_plane n₁ max_range).1.2.1, row.length = 10) ∧
    ((get_grid_on_plane n₁ max_range).1.2.2.length = 10 ∧
      ∀ row ∈ (get_grid_on_plane n₁ max_range).1.2.2, row.length = 10) ∧
    ((get_grid_on_plane n₁ max_range).2.1.length = 10 ∧
      ∀ row ∈ (get_grid_on_plane n₁ max_range).2.1, row.length = 10) ∧
    ((get_grid_on_plane n₁ max_range).2.2.length = 10 ∧
      ∀ row ∈ (get_grid_on_plane n₁ max_range).2.2, row.length = 10) := by
  have hlen : ∀ a b : ℝ, (np_linspace a b 10).length = 10 :=
    fun a b => np_linspace_length a b 10
  refine ⟨rfl, ?_, ?_, ?_, ?_, ?_⟩ <;>
    simp only [get_grid_on_plane, zipWith_map_same, zipWith_left_map,
      List.map_map] <;>
    refine ⟨by simp [hlen], fun row hrow => ?_⟩ <;>
    (rcases List.mem_map.mp hrow with ⟨yi, hyi, rfl⟩
     simp [Function.comp, hlen])

/-! ## 4.4 Separation estimator (`get_separation_from_omega`)

Embeds the 3.5 PN separation estimate of source lines 194–231: with
`eta = mA*mB`, `deltaM = mA - mB`, `Sigma_vec = mB*chiB - mA*chiA`,
`S_vec = mA^2*chiA + mB^2*chiB` and the dot products of these (and of
the two spins) with the angular-momentum direction, compute
`gamma = 1/r` as a series in `x = omega^(2/3)`, invert, and add the 2PN
spin-spin term.  All array operations are elementwise per sample. -/

/-- `np.sum(u*v, axis=1)` at one sample: the 3-vector dot product. -/
def dot3 (u v : Vec3) : ℝ := u.1 * v.1 + u.2.1 * v.2.1 + u.2.2 * v.2.2

/-- Scalar times 3-vector, elementwise. -/
def vsmul (c : ℝ) (v : Vec3) : Vec3 := (c * v.1, c * v.2.1, c * v.2.2)

/-- 3-vector difference, elementwise. -/
def vsub (u v : Vec3) : Vec3 := (u.1 - v.1, u.2.1 - v.2.1, u.2.2 - v.2.2)

/-- 3-vector sum, elementwise. -/
def vadd (u v : Vec3) : Vec3 := (u.1 + v.1, u.2.1 + v.2.1, u.2.2 + v.2.2)

/-- `get_separation_from_omega` at one time sample.  (`chiAL` and
`chiBL` are computed by the source but never used; they are omitted.) -/
noncomputable def separation_at (ω mass_A mass_B : ℝ)
    (chiA chiB LHat : Vec3) : ℝ :=
  let eta := mass_A * mass_B
  let deltaM := mass_A - mass_B
  let Sigma_vec := vsub (vsmul mass_B chiB) (vsmul mass_A chiA)
  let S_vec := vadd (vsmul (mass_A ^ 2) chiA) (vsmul (mass_B ^ 2) chiB)
  let chiAB := dot3 chiA chiB
  let SigmaL := dot3 Sigma_vec LHat
  let SL := dot3 S_vec LHat
  let x := ω ^ ((2:ℝ)/3)
  let gamma := x * (1 + x * (1 - 1/3 * eta)
      + x ^ ((3:ℝ)/2) * (5/3 * SL + deltaM * SigmaL)
      + x ^ (2:ℝ) * (1 - 65/12 * eta)
      + x ^ ((5:ℝ)/2) * ((10/3 + 8/9 * eta) * SL + 2 * deltaM * SigmaL)
      + x ^ (3:ℝ) * (1 + (-2203/2520 - 41/192 * Real.pi ^ 2) * eta
          + 229/36 * eta ^ 2 + 1/81 * eta ^ 3)
      + x ^ ((7:ℝ)/2) * ((5 - 127/12 * eta - 6 * eta ^ 2) * SL
          + deltaM * SigmaL * (3 - 61/6 * eta - 8/3 * eta ^ 2)))
  1 / gamma + ω ^ (-(2:ℝ)/3) * (-1/2 * eta * chiAB) * ω ^ ((4:ℝ)/3)

/-- The vectorized `get_separation_from_omega`. -/
noncomputable def get_separation_from_omega (omega : List ℝ)
    (mass_A mass_B : ℝ) (chiA chiB LHat : List Vec3) : List ℝ :=
  List.zipWith (fun ω v => separation_at ω mass_A mass_B v.1 v.2.1 v.2.2)
    omega (chiA.zip (chiB.zip LHat))

theorem newtonian_core (x c3 : ℝ) (hx : 0 < x)
    (h3l : 64/100 ≤ c3) (h3u : c3 ≤ 66/100) :
    |1 / (x * (1 + x * (11/12) + x ^ 2 * (-17/48) + x ^ 3 * c3)) - x⁻¹|
      ≤ 11/12 := by
  have hq : 0 ≤ 11/12 + (-17/48) * x + c3 * x ^ 2 := by
    nlinarith [sq_nonneg (x - 425/1536),
      mul_nonneg (sub_nonneg.mpr h3l) (sq_nonneg x)]
  have hD : (1:ℝ) ≤ 1 + x * (11/12) + x ^ 2 * (-17/48) + x ^ 3 * c3 := by
    nlinarith [mul_nonneg hx.le hq]
  have hDpos : (0:ℝ) < 1 + x * (11/12) + x ^ 2 * (-17/48) + x ^ 3 * c3 := by
    linarith
  have hxD : 0 < x * (1 + x * (11/12) + x ^ 2 * (-17/48) + x ^ 3 * c3) :=
    mul_pos hx hDpos
  have hfx : 0 ≤ 43/36 + (-187/576 - c3) * x + 11/12 * c3 * x ^ 2 := by
    nlinarith [sq_nonneg (x - 4/5),
      mul_nonneg (sub_nonneg.mpr h3l) (sq_nonneg (x - 4/5)),
      mul_nonneg (sub_nonneg.mpr h3u) hx.le,
      mul_nonneg (sub_nonneg.mpr h3l) hx.le]
  have hle : 1 / (x * (1 + x * (11/12) + x ^ 2 * (-17/48) + x ^ 3 * c3))
      ≤ x⁻¹ := by
    rw [one_div]
    apply inv_anti₀ hx
    nlinarith [mul_nonneg hx.le (sub_nonneg.mpr hD)]
  have hxinv : x⁻¹ = (1 + x * (11/12) + x ^ 2 * (-17/48) + x ^ 3 * c3)
      / (x * (1 + x * (11/12) + x ^ 2 * (-17/48) + x ^ 3 * c3)) := by
    rw [eq_div_iff (ne_of_gt hxD)]
    field_simp
  rw [abs_sub_comm, abs_of_nonneg (by linarith), hxinv, div_sub_div_same,
    div_le_iff₀ hxD]
  nlinarith [mul_nonneg (sq_nonneg x) hfx]

theorem separation_at_newtonian (ω : ℝ) (hω : 0 < ω) (L : Vec3) :
    |separation_at ω (1/2) (1/2) (0, 0, 0) (0, 0, 0) L
        - (ω ^ ((2:ℝ)/3))⁻¹| ≤ 1 - (1/2 * (1/2)) / 3 := by
  have hx : 0 < ω ^ ((2:ℝ)/3) := Real.rpow_pos_of_pos hω _
  have hx3 : (ω ^ ((2:ℝ)/3)) ^ (3:ℝ) = (ω ^ ((2:ℝ)/3)) ^ (3:ℕ) := by
    rw [show (3:ℝ) = ((3:ℕ):ℝ) by norm_num, Real.rpow_natCast]
  have heq : separation_at ω (1/2) (1/2) (0, 0, 0) (0, 0, 0) L
      = 1 / (ω ^ ((2:ℝ)/3) * (1 + ω ^ ((2:ℝ)/3) * (11/12)
          + (ω ^ ((2:ℝ)/3)) ^ 2 * (-17/48) + (ω ^ ((2:ℝ)/3)) ^ 3
            * (1 + (-2203/2520 - 41/192 * Real.pi ^ 2) * (1/4)
              + 229/36 * (1/4) ^ 2 + 1/81 * (1/4) ^ 3))) := by
    simp only [separation_at, dot3, vsub, vadd, vsmul]
    norm_num
    exact Or.inl (Or.inl hx3)
  have hpil := Real.pi_gt_d6
  have hpiu := Real.pi_lt_d6
  have h3l : (64:ℝ)/100 ≤ 1 + (-2203/2520 - 41/192 * Real.pi ^ 2) * (1/4)
      + 229/36 * ((1:ℝ)/4) ^ 2 + 1/81 * ((1:ℝ)/4) ^ 3 := by
    have hsq : Real.pi ^ 2 < 9.86961 := by nlinarith
    nlinarith
  have h3u : (1:ℝ) + (-2203/2520 - 41/192 * Real.pi ^ 2) * (1/4)
      + 229/36 * ((1:ℝ)/4) ^ 2 + 1/81 * ((1:ℝ)/4) ^ 3 ≤ 66/100 := by
    have hsq : (9.869600 : ℝ) < Real.pi ^ 2 := by nlinarith
    nlinarith
  have hcore := newtonian_core (ω ^ ((2:ℝ)/3))
    (1 + (-2203/2520 - 41/192 * Real.pi ^ 2) * (1/4)
      + 229/36 * ((1:ℝ)/4) ^ 2 + 1/81 * ((1:ℝ)/4) ^ 3) hx h3l h3u
  rw [heq, show (1:ℝ) - (1/2 * (1/2)) / 3 = 11/12 by norm_num]
  exact hcore

/-- C6: with both spin vectors zero and equal mass fractions
`mA = mB = 1/2` (so `eta = 1/4`, `deltaM = 0`), the separation computed
at every sample differs from the Newtonian relation `r = x⁻¹`
(`x = ω^(2/3)`) by at most `1 - eta/3 = 11/12`, the magnitude of the
next-order (relative order `x`) correction coefficient of the series. -/
theorem get_separation_from_omega_newtonian_limit (omega : List ℝ)
    (LHat : List Vec3) (hlen : LHat.length = omega.length)
    (hpos : ∀ ω ∈ omega, 0 < ω) :
    List.Forall₂
      (fun r ω => |r - (ω ^ ((2:ℝ)/3))⁻¹| ≤ 1 - (1/2 * (1/2)) / 3)
      (get_separation_from_omega omega (1/2) (1/2)
        (List.replicate omega.length (0, 0, 0))
        (List.replicate omega.length (0, 0, 0)) LHat)
      omega := by
  unfold get_separation_from_omega
  induction omega generalizing LHat with
  | nil => simp
  | cons ω ωs ih =>
    cases LHat with
    | nil => simp at hlen
    | cons L Ls =>
      simp only [List.length_cons, List.replicate_succ, List.zip_cons_cons,
        List.zipWith_cons_cons]
      refine List.Forall₂.cons ?_ ?_
      · exact separation_at_newtonian ω (hpos ω (List.mem_cons_self _ _)) L
      · exact ih Ls (by simpa using hlen)
          (fun w hw => hpos w (List.mem_cons_of_mem _ hw))

/-- Concrete instance for `get_separation_from_omega_newtonian_limit`
at the single sample `ω = 1`, `LHat = ẑ`. -/
theorem get_separation_newtonian_limit_witness :
    List.Forall₂
      (fun r ω => |r - (ω ^ ((2:ℝ)/3))⁻¹| ≤ 1 - (1/2 * (1/2)) / 3)
      (get_separation_from_omega [1] (1/2) (1/2)
        (List.replicate ([1] : List ℝ).length (0, 0, 0))
        (List.replicate ([1] : List ℝ).length (0, 0, 0)) [(0, 0, 1)])
      [1] :=
  get_separation_from_omega_newtonian_limit [1] [(0, 0, 1)] rfl
    (by intro w hw; rcases List.mem_singleton.mp hw with rfl; norm_num)

end BHScattering
